import Mathlib

/-!
Verification of the `Scheduler` interval engine (src/scheduler.py).

Modelling conventions:
* Python "HH:MM" time strings are represented by their minute-of-day values
  (`Nat`), via the bijection realised by `_time_to_minutes` / `_minutes_to_time`
  (both conversions are modelled below for the string-level development).
* Python date strings are represented as `List Char`; Python string comparison
  is lexicographic on code points, modelled by `strLt` / `strLe`.
* The post-construction index (`self.days`, `self.timeslots`) is modelled by
  `Scheduler`: one entry per date carrying the work window and the raw busy
  list.  `_organize_timeslots` initialises the timeslot dictionary with exactly
  the keys of the day dictionary, so a single lookup models both membership
  tests (`date not in self.days`, `date not in self.timeslots`).
* Python `sorted` is a stable sort; `List.insertionSort` with a `≤`-style
  relation on the key is extensionally the same function.
-/

/-- Busy or free interval in minutes: (start, end). -/
abbrev Slot := Nat × Nat

/-- Loop body of `_merge_overlapping_slots`: `last` is the currently open
merged interval (Python's `merged[-1]`), the list is the remaining sorted
input.  `current[0] <= last[1]` extends `last` to `max(last[1], current[1])`,
otherwise `last` is closed and `current` opened. -/
def mergeLoop (last : Slot) : List Slot → List Slot
  | [] => [last]
  | c :: rest =>
    if c.1 ≤ last.2 then mergeLoop (last.1, max last.2 c.2) rest
    else last :: mergeLoop c rest

/-- Sort relation of `sorted(slots, key=lambda x: x[0])` on minute slots. -/
def slotLe (a b : Slot) : Prop := a.1 ≤ b.1

instance : DecidableRel slotLe := fun a b => Nat.decLe a.1 b.1

instance : IsTotal Slot slotLe := ⟨fun a b => Nat.le_total a.1 b.1⟩

instance : IsTrans Slot slotLe := ⟨fun _ _ _ h h' => Nat.le_trans h h'⟩

/-- Model of `Scheduler._merge_overlapping_slots` on minute slots:
sort by interval start, then fold merging every interval whose start is at
most the open interval's end. -/
def merge_overlapping_slots (slots : List Slot) : List Slot :=
  match List.insertionSort slotLe slots with
  | [] => []
  | s :: rest => mergeLoop s rest

/-- One entry of the calendar index: a date with its working window (minutes)
and its raw busy slots (minutes), i.e. `self.days[date]` together with
`self.timeslots[date]`. -/
structure Day where
  date : List Char
  workStart : Nat
  workEnd : Nat
  busy : List Slot
deriving DecidableEq

/-- The post-construction index of `Scheduler.__init__`. -/
structure Scheduler where
  days : List Day
deriving DecidableEq

/-- Dictionary lookup `self.days[date]` (`None` when `date not in self.days`,
equivalently `date not in self.timeslots`). -/
def findDay (sch : Scheduler) (d : List Char) : Option Day :=
  sch.days.find? (fun day => day.date = d)

/-- Model of `Scheduler.get_busy_slots`: unknown date yields `[]`, otherwise
the merge of the date's raw busy slots. -/
def get_busy_slots (sch : Scheduler) (d : List Char) : List Slot :=
  match findDay sch d with
  | none => []
  | some day => merge_overlapping_slots day.busy

/-- Loop of `Scheduler.get_free_slots`: `prevEnd` is the cursor, starting at
the work start; a gap is emitted before every busy slot whose start exceeds
the cursor; the cursor advances by `max`; a final gap is emitted when the
cursor is still below the work end. -/
def freeLoop (prevEnd workEnd : Nat) : List Slot → List Slot
  | [] => if prevEnd < workEnd then [(prevEnd, workEnd)] else []
  | b :: rest =>
    if prevEnd < b.1 then (prevEnd, b.1) :: freeLoop (max prevEnd b.2) workEnd rest
    else freeLoop (max prevEnd b.2) workEnd rest

/-- Model of `Scheduler.get_free_slots`: unknown date yields `[]`, otherwise
the cursor walk over the merged busy slots of the date. -/
def get_free_slots (sch : Scheduler) (d : List Char) : List Slot :=
  match findDay sch d with
  | none => []
  | some day => freeLoop day.workStart day.workEnd (get_busy_slots sch d)

/-- Model of `Scheduler.is_available`: unknown date is `false`; a request
outside the working window (`slot_start < work_start or slot_end > work_end`)
is `false`; a request overlapping some merged busy slot (overlap unless
`slot_end <= busy_start or slot_start >= busy_end`) is `false`; else `true`. -/
def is_available (sch : Scheduler) (d : List Char) (s e : Nat) : Bool :=
  match findDay sch d with
  | none => false
  | some day =>
    if s < day.workStart || day.workEnd < e then false
    else (get_busy_slots sch d).all (fun b => decide (e ≤ b.1) || decide (b.2 ≤ s))

/-- Python string strict comparison `<`: lexicographic on code points. -/
def strLt : List Char → List Char → Bool
  | _, [] => false
  | [], _ :: _ => true
  | a :: as, b :: bs =>
    if a.toNat < b.toNat then true
    else if b.toNat < a.toNat then false
    else strLt as bs

/-- Python string comparison `<=` (total order: `a <= b` iff `not (b < a)`). -/
def strLe (a b : List Char) : Bool := ! strLt b a

/-- Date ordering used by `sorted(self.days.keys())`. -/
def dateLe (a b : List Char) : Prop := strLe a b = true

instance : DecidableRel dateLe := fun a b => instDecidableEqBool (strLe a b) true

/-- The ascending date list `sorted(self.days.keys())`. -/
def sortedDates (sch : Scheduler) : List (List Char) :=
  List.insertionSort dateLe (sch.days.map (·.date))

/-- Inner loop of `find_slot_for_duration` over one date's free slots:
first slot whose span `end - start` is at least the duration. -/
def firstFit (dur : Nat) : List Slot → Option Slot
  | [] => none
  | p :: rest => if dur ≤ p.2 - p.1 then some p else firstFit dur rest

/-- Outer loop of `find_slot_for_duration` over the sorted dates. -/
def findLoop (sch : Scheduler) (dur : Nat) : List (List Char) → Option (List Char × Nat × Nat)
  | [] => none
  | d :: ds =>
    match firstFit dur (get_free_slots sch d) with
    | some p => some (d, p.1, p.1 + dur)
    | none => findLoop sch dur ds

/-- Model of `Scheduler.find_slot_for_duration`: scan dates in ascending
string order, return `(date, start, start + duration)` for the first free
slot long enough, `none` otherwise. -/
def find_slot_for_duration (sch : Scheduler) (dur : Nat) : Option (List Char × Nat × Nat) :=
  findLoop sch dur (sortedDates sch)

/-! String-level development for the refinement claim: `get_busy_slots`
merges the raw ("HH:MM", "HH:MM") pairs as strings. -/

/-- A time string as a list of characters. -/
abbrev TimeStr := List Char

/-- Python `s.split(':')` for a string with one colon: the part before the
first colon and the part after it. -/
def splitColon : List Char → List Char × List Char
  | [] => ([], [])
  | c :: rest =>
    if c = ':' then ([], rest)
    else ((splitColon rest).1.cons c, (splitColon rest).2)

/-- Value of `int(...)` on a digit string (no sign handling needed here). -/
def digitsVal (l : List Char) : Nat := l.foldl (fun acc c => 10 * acc + (c.toNat - 48)) 0

/-- Model of `Scheduler._time_to_minutes`: split at the colon, parse both
components, return `hours * 60 + minutes`. -/
def time_to_minutes (s : TimeStr) : Nat :=
  60 * digitsVal (splitColon s).1 + digitsVal (splitColon s).2

/-- Decimal digit character. -/
def digitChar (n : Nat) : Char := Char.ofNat (48 + n)

/-- Model of `Scheduler._minutes_to_time`, i.e. the f-string
`"{hours:02d}:{mins:02d}"`, on its intended domain (hours below 100, which
covers every value the engine produces: merged well-formed "HH:MM" endpoints
stay below 6000 minutes). -/
def minutes_to_time (m : Nat) : TimeStr :=
  [digitChar (m / 60 / 10), digitChar (m / 60 % 10), ':',
   digitChar (m % 60 / 10), digitChar (m % 60 % 10)]

/-- Well-formed zero-padded two-digit "HH:MM" value: the image of a minute
value below 6000 (hours 00..99, minutes 00..59) under the formatter. -/
def wfTime (s : TimeStr) : Prop := ∃ t, t < 6000 ∧ s = minutes_to_time t

/-- Python `max` on two strings: the second iff it is strictly larger. -/
def strMax (a b : TimeStr) : TimeStr := if strLt a b then b else a

/-- Sort relation of `sorted(slots, key=lambda x: x[0])` on string pairs. -/
def strSlotLe (a b : TimeStr × TimeStr) : Prop := strLe a.1 b.1 = true

instance : DecidableRel strSlotLe := fun a b => instDecidableEqBool (strLe a.1 b.1) true

/-- Loop body of `_merge_overlapping_slots` as it actually runs inside
`get_busy_slots`: on pairs of "HH:MM" strings, compared as strings. -/
def mergeLoopStr (last : TimeStr × TimeStr) :
    List (TimeStr × TimeStr) → List (TimeStr × TimeStr)
  | [] => [last]
  | c :: rest =>
    if strLe c.1 last.2 then mergeLoopStr (last.1, strMax last.2 c.2) rest
    else last :: mergeLoopStr c rest

/-- Model of `Scheduler._merge_overlapping_slots` applied to the raw
string pairs, exactly as `get_busy_slots` invokes it: sorting, comparison
and `max` all act on the strings themselves. -/
def merge_overlapping_slots_str (slots : List (TimeStr × TimeStr)) :
    List (TimeStr × TimeStr) :=
  match List.insertionSort strSlotLe slots with
  | [] => []
  | s :: rest => mergeLoopStr s rest

/-- Modelled from the spec (refinement reference): convert each endpoint to
minutes, merge numerically, convert the merged endpoints back to strings. -/
def merge_via_minutes (slots : List (TimeStr × TimeStr)) : List (TimeStr × TimeStr) :=
  (merge_overlapping_slots (slots.map fun p => (time_to_minutes p.1, time_to_minutes p.2))).map
    fun q => (minutes_to_time q.1, minutes_to_time q.2)

/-- Both endpoints of a minute slot formatted back to "HH:MM" strings. -/
def slotToStr (q : Slot) : TimeStr × TimeStr := (minutes_to_time q.1, minutes_to_time q.2)

/-- Both endpoints of a string slot parsed to minutes. -/
def slotToMin (p : TimeStr × TimeStr) : Slot := (time_to_minutes p.1, time_to_minutes p.2)

/-! Concrete fixtures, used by witnesses and counterexamples. -/

/-- Date "2024-10-10" of the repository's test fixture. -/
def exDateA : List Char := ['2','0','2','4','-','1','0','-','1','0']

/-- Date "2024-10-11" of the repository's test fixture. -/
def exDateB : List Char := ['2','0','2','4','-','1','0','-','1','1']

/-- The two-day index of scheduler_test.py: 09:00-18:00 with busy 11:00-12:00,
and 08:00-17:00 with busy 09:30-16:00, in minutes. -/
def exSched : Scheduler :=
  ⟨[⟨exDateA, 540, 1080, [(660, 720)]⟩, ⟨exDateB, 480, 1020, [(570, 960)]⟩]⟩

/-- A one-day index whose busy slot 19:00-20:00 starts after the 18:00 work
end of its 09:00-18:00 working window. -/
def cexSched : Scheduler := ⟨[⟨['d'], 540, 1080, [(1140, 1200)]⟩]⟩

/-- Candidates the duration search would accept on one date: the date's free
slots whose span covers the duration, tagged with the returned triple. -/
def freeFits (sch : Scheduler) (dur : Nat) (d : List Char) : List (List Char × Nat × Nat) :=
  ((get_free_slots sch d).filter fun p => decide (dur ≤ p.2 - p.1)).map
    fun p => (d, p.1, p.1 + dur)

/-- All candidates of the duration search, in its scan order: dates ascending,
then each date's free slots in list order. -/
def candidateList (sch : Scheduler) (dur : Nat) : List (List Char × Nat × Nat) :=
  (sortedDates sch).flatMap (freeFits sch dur)

/-! Structural lemmas about the merge fold. -/

theorem mergeLoop_head (last : Slot) (l : List Slot) :
    ∃ E tl, mergeLoop last l = (last.1, E) :: tl := by
  induction l generalizing last with
  | nil => exact ⟨last.2, [], rfl⟩
  | cons c rest ih =>
    by_cases h : c.1 ≤ last.2
    · simpa [mergeLoop, h] using ih (last.1, max last.2 c.2)
    · exact ⟨last.2, mergeLoop c rest, by simp [mergeLoop, h]⟩

theorem mergeLoop_chain (l : List Slot) : ∀ last, List.Pairwise slotLe l →
    List.Chain' (fun a b : Slot => a.2 < b.1) (mergeLoop last l) := by
  induction l with
  | nil => intro last _; simp [mergeLoop]
  | cons c rest ih =>
    intro last hp
    rw [List.pairwise_cons] at hp
    by_cases h : c.1 ≤ last.2
    · simpa [mergeLoop, h] using ih (last.1, max last.2 c.2) hp.2
    · rw [show mergeLoop last (c :: rest) = last :: mergeLoop c rest by simp [mergeLoop, h]]
      refine List.chain'_cons'.mpr ⟨?_, ih c hp.2⟩
      intro y hy
      obtain ⟨E, tl, hE⟩ := mergeLoop_head c rest
      rw [hE] at hy
      simp only [List.head?_cons, Option.mem_def, Option.some.injEq] at hy
      rw [← hy]
      exact Nat.lt_of_not_le h

theorem mergeLoop_mem_starts (l : List Slot) : ∀ last, ∀ x ∈ mergeLoop last l,
    x.1 = last.1 ∨ x.1 ∈ l.map (·.1) := by
  induction l with
  | nil => intro last x hx; simp [mergeLoop] at hx; simp [hx]
  | cons c rest ih =>
    intro last x hx
    by_cases h : c.1 ≤ last.2
    · rw [show mergeLoop last (c :: rest) = mergeLoop (last.1, max last.2 c.2) rest by
        simp [mergeLoop, h]] at hx
      rcases ih (last.1, max last.2 c.2) x hx with h1 | h1
      · exact Or.inl h1
      · simp only [List.map_cons, List.mem_cons]
        exact Or.inr (Or.inr h1)
    · rw [show mergeLoop last (c :: rest) = last :: mergeLoop c rest by simp [mergeLoop, h]] at hx
      rcases List.mem_cons.mp hx with h1 | h1
      · exact Or.inl (by rw [h1])
      · rcases ih c x h1 with h2 | h2
        · simp only [List.map_cons, List.mem_cons]
          exact Or.inr (Or.inl h2)
        · simp only [List.map_cons, List.mem_cons]
          exact Or.inr (Or.inr h2)

theorem mergeLoop_mem_ends (l : List Slot) : ∀ last, ∀ x ∈ mergeLoop last l,
    x.2 = last.2 ∨ x.2 ∈ l.map (·.2) := by
  induction l with
  | nil => intro last x hx; simp [mergeLoop] at hx; simp [hx]
  | cons c rest ih =>
    intro last x hx
    by_cases h : c.1 ≤ last.2
    · rw [show mergeLoop last (c :: rest) = mergeLoop (last.1, max last.2 c.2) rest by
        simp [mergeLoop, h]] at hx
      rcases ih (last.1, max last.2 c.2) x hx with h1 | h1
      · rcases Nat.le_total last.2 c.2 with hm | hm
        · rw [Nat.max_eq_right hm] at h1
          simp only [List.map_cons, List.mem_cons]
          exact Or.inr (Or.inl h1)
        · rw [Nat.max_eq_left hm] at h1
          exact Or.inl h1
      · simp only [List.map_cons, List.mem_cons]
        exact Or.inr (Or.inr h1)
    · rw [show mergeLoop last (c :: rest) = last :: mergeLoop c rest by simp [mergeLoop, h]] at hx
      rcases List.mem_cons.mp hx with h1 | h1
      · exact Or.inl (by rw [h1])
      · rcases ih c x h1 with h2 | h2
        · simp only [List.map_cons, List.mem_cons]
          exact Or.inr (Or.inl h2)
        · simp only [List.map_cons, List.mem_cons]
          exact Or.inr (Or.inr h2)

theorem mergeLoop_valid_lt (l : List Slot) : ∀ last, last.1 < last.2 →
    (∀ x ∈ l, x.1 < x.2) → ∀ y ∈ mergeLoop last l, y.1 < y.2 := by
  induction l with
  | nil => intro last hl _ y hy; simp [mergeLoop] at hy; simpa [hy] using hl
  | cons c rest ih =>
    intro last hl hv y hy
    by_cases h : c.1 ≤ last.2
    · rw [show mergeLoop last (c :: rest) = mergeLoop (last.1, max last.2 c.2) rest by
        simp [mergeLoop, h]] at hy
      refine ih (last.1, max last.2 c.2) ?_ (fun x hx => hv x (List.mem_cons_of_mem c hx)) y hy
      exact Nat.lt_of_lt_of_le hl (Nat.le_max_left _ _)
    · rw [show mergeLoop last (c :: rest) = last :: mergeLoop c rest by simp [mergeLoop, h]] at hy
      rcases List.mem_cons.mp hy with h1 | h1
      · rw [h1]; exact hl
      · exact ih c (hv c (List.mem_cons_self c rest))
          (fun x hx => hv x (List.mem_cons_of_mem c hx)) y h1

theorem mergeLoop_valid_le (l : List Slot) : ∀ last, last.1 ≤ last.2 →
    (∀ x ∈ l, x.1 ≤ x.2) → ∀ y ∈ mergeLoop last l, y.1 ≤ y.2 := by
  induction l with
  | nil => intro last hl _ y hy; simp [mergeLoop] at hy; simpa [hy] using hl
  | cons c rest ih =>
    intro last hl hv y hy
    by_cases h : c.1 ≤ last.2
    · rw [show mergeLoop last (c :: rest) = mergeLoop (last.1, max last.2 c.2) rest by
        simp [mergeLoop, h]] at hy
      refine ih (last.1, max last.2 c.2) ?_ (fun x hx => hv x (List.mem_cons_of_mem c hx)) y hy
      exact Nat.le_trans hl (Nat.le_max_left _ _)
    · rw [show mergeLoop last (c :: rest) = last :: mergeLoop c rest by simp [mergeLoop, h]] at hy
      rcases List.mem_cons.mp hy with h1 | h1
      · rw [h1]; exact hl
      · exact ih c (hv c (List.mem_cons_self c rest))
          (fun x hx => hv x (List.mem_cons_of_mem c hx)) y h1

theorem mergeLoop_sorted (l : List Slot) : ∀ last, List.Pairwise slotLe l →
    (∀ x ∈ l, last.1 ≤ x.1) → List.Pairwise slotLe (mergeLoop last l) := by
  induction l with
  | nil => intro last _ _; simp [mergeLoop, List.pairwise_cons]
  | cons c rest ih =>
    intro last hp hle
    rw [List.pairwise_cons] at hp
    by_cases h : c.1 ≤ last.2
    · rw [show mergeLoop last (c :: rest) = mergeLoop (last.1, max last.2 c.2) rest by
        simp [mergeLoop, h]]
      exact ih (last.1, max last.2 c.2) hp.2
        (fun x hx => hle x (List.mem_cons_of_mem c hx))
    · rw [show mergeLoop last (c :: rest) = last :: mergeLoop c rest by simp [mergeLoop, h]]
      refine List.pairwise_cons.mpr ⟨?_, ih c hp.2 hp.1⟩
      intro y hy
      rcases mergeLoop_mem_starts rest c y hy with h1 | h1
      · show last.1 ≤ y.1
        rw [h1]; exact hle c (List.mem_cons_self c rest)
      · rcases List.mem_map.mp h1 with ⟨x, hx, hxy⟩
        show last.1 ≤ y.1
        rw [← hxy]
        exact hle x (List.mem_cons_of_mem c hx)

/-! Lemmas about `merge_overlapping_slots`. -/

theorem merge_sorted (slots : List Slot) :
    List.Pairwise slotLe (merge_overlapping_slots slots) := by
  unfold merge_overlapping_slots
  have hs := List.sorted_insertionSort slotLe slots
  cases h : List.insertionSort slotLe slots with
  | nil => exact List.Pairwise.nil
  | cons s rest =>
    rw [h] at hs
    rw [List.Sorted, List.pairwise_cons] at hs
    exact mergeLoop_sorted rest s hs.2 hs.1

theorem merge_chain (slots : List Slot) :
    List.Chain' (fun a b : Slot => a.2 < b.1) (merge_overlapping_slots slots) := by
  unfold merge_overlapping_slots
  have hs := List.sorted_insertionSort slotLe slots
  cases h : List.insertionSort slotLe slots with
  | nil => exact List.chain'_nil
  | cons s rest =>
    rw [h] at hs
    rw [List.Sorted, List.pairwise_cons] at hs
    exact mergeLoop_chain rest s hs.2

theorem mem_of_mem_insertionSort {x : Slot} {slots : List Slot}
    (h : x ∈ List.insertionSort slotLe slots) : x ∈ slots :=
  (List.perm_insertionSort slotLe slots).mem_iff.mp h

theorem merge_mem_starts (slots : List Slot) :
    ∀ q ∈ merge_overlapping_slots slots, ∃ p ∈ slots, q.1 = p.1 := by
  unfold merge_overlapping_slots
  cases h : List.insertionSort slotLe slots with
  | nil => intro q hq; exact absurd hq (List.not_mem_nil q)
  | cons s rest =>
    intro q hq
    rcases mergeLoop_mem_starts rest s q hq with h1 | h1
    · exact ⟨s, mem_of_mem_insertionSort (h ▸ List.mem_cons_self s rest), h1⟩
    · rcases List.mem_map.mp h1 with ⟨p, hp, hps⟩
      exact ⟨p, mem_of_mem_insertionSort (h ▸ List.mem_cons_of_mem s hp), hps.symm⟩

theorem merge_mem_ends (slots : List Slot) :
    ∀ q ∈ merge_overlapping_slots slots, ∃ p ∈ slots, q.2 = p.2 := by
  unfold merge_overlapping_slots
  cases h : List.insertionSort slotLe slots with
  | nil => intro q hq; exact absurd hq (List.not_mem_nil q)
  | cons s rest =>
    intro q hq
    rcases mergeLoop_mem_ends rest s q hq with h1 | h1
    · exact ⟨s, mem_of_mem_insertionSort (h ▸ List.mem_cons_self s rest), h1⟩
    · rcases List.mem_map.mp h1 with ⟨p, hp, hps⟩
      exact ⟨p, mem_of_mem_insertionSort (h ▸ List.mem_cons_of_mem s hp), hps.symm⟩

theorem merge_valid_lt (slots : List Slot) (hv : ∀ p ∈ slots, p.1 < p.2) :
    ∀ q ∈ merge_overlapping_slots slots, q.1 < q.2 := by
  unfold merge_overlapping_slots
  cases h : List.insertionSort slotLe slots with
  | nil => intro q hq; exact absurd hq (List.not_mem_nil q)
  | cons s rest =>
    intro q hq
    refine mergeLoop_valid_lt rest s ?_ ?_ q hq
    · exact hv s (mem_of_mem_insertionSort (h ▸ List.mem_cons_self s rest))
    · exact fun x hx => hv x (mem_of_mem_insertionSort (h ▸ List.mem_cons_of_mem s hx))

theorem merge_valid_le (slots : List Slot) (hv : ∀ p ∈ slots, p.1 ≤ p.2) :
    ∀ q ∈ merge_overlapping_slots slots, q.1 ≤ q.2 := by
  unfold merge_overlapping_slots
  cases h : List.insertionSort slotLe slots with
  | nil => intro q hq; exact absurd hq (List.not_mem_nil q)
  | cons s rest =>
    intro q hq
    refine mergeLoop_valid_le rest s ?_ ?_ q hq
    · exact hv s (mem_of_mem_insertionSort (h ▸ List.mem_cons_self s rest))
    · exact fun x hx => hv x (mem_of_mem_insertionSort (h ▸ List.mem_cons_of_mem s hx))

theorem chain_sep_pairwise (l : List Slot)
    (hc : List.Chain' (fun a b : Slot => a.2 < b.1) l)
    (hv : ∀ x ∈ l, x.1 ≤ x.2) :
    List.Pairwise (fun a b : Slot => a.2 < b.1) l := by
  induction l with
  | nil => exact List.Pairwise.nil
  | cons a t ih =>
    have ht : List.Pairwise (fun a b : Slot => a.2 < b.1) t :=
      ih hc.tail (fun x hx => hv x (List.mem_cons_of_mem a hx))
    refine List.pairwise_cons.mpr ⟨?_, ht⟩
    intro b hb
    cases t with
    | nil => exact absurd hb (List.not_mem_nil b)
    | cons h0 t' =>
      have hah : a.2 < h0.1 := List.chain'_cons.mp hc |>.1
      rcases List.mem_cons.mp hb with h1 | h1
      · rw [h1]; exact hah
      · have : h0.2 < b.1 := (List.pairwise_cons.mp ht).1 b h1
        have hh0 : h0.1 ≤ h0.2 := hv h0 (List.mem_cons_of_mem a (List.mem_cons_self h0 t'))
        omega

theorem merge_pairwise_sep (slots : List Slot) (hv : ∀ p ∈ slots, p.1 ≤ p.2) :
    List.Pairwise (fun a b : Slot => a.2 < b.1) (merge_overlapping_slots slots) :=
  chain_sep_pairwise _ (merge_chain slots) (merge_valid_le slots hv)

theorem mergeLoop_no_merge (l : List Slot) : ∀ last,
    List.Chain' (fun a b : Slot => a.2 < b.1) (last :: l) → mergeLoop last l = last :: l := by
  induction l with
  | nil => intro last _; rfl
  | cons c rest ih =>
    intro last hc
    have h1 : last.2 < c.1 := (List.chain'_cons.mp hc).1
    have hne : ¬ (c.1 ≤ last.2) := by omega
    rw [show mergeLoop last (c :: rest) = last :: mergeLoop c rest by simp [mergeLoop, hne]]
    rw [ih c (List.chain'_cons.mp hc).2]

theorem merge_eq_self (l : List Slot) (hs : List.Pairwise slotLe l)
    (hc : List.Chain' (fun a b : Slot => a.2 < b.1) l) :
    merge_overlapping_slots l = l := by
  unfold merge_overlapping_slots
  have he : List.insertionSort slotLe l = l := List.Sorted.insertionSort_eq hs
  rw [he]
  cases l with
  | nil => rfl
  | cons s rest => exact mergeLoop_no_merge rest s hc

/-- C4 (amended): merging the empty list yields the empty list, and on every
list of genuine minute intervals (start at most end) the merge returns
intervals in strictly ascending start order that are pairwise non-overlapping
and non-touching: every earlier interval's end is strictly below every later
interval's start.  (Overlapping or touching inputs are absorbed by the fold
extending the open interval's end to the maximum of the two ends, which is
the definition of `mergeLoop`.)  The unamended claim quantified over every
interval list; it fails on lists containing a pair whose end precedes its
start, see the counterexample. -/
theorem C4_merge_output_ordered :
    merge_overlapping_slots [] = [] ∧
    ∀ slots : List Slot, (∀ p ∈ slots, p.1 ≤ p.2) →
      List.Pairwise (fun a b : Slot => a.1 < b.1) (merge_overlapping_slots slots) ∧
      List.Pairwise (fun a b : Slot => a.2 < b.1) (merge_overlapping_slots slots) := by
  refine ⟨rfl, fun slots hv => ?_⟩
  have hsep := merge_pairwise_sep slots hv
  have hval := merge_valid_le slots hv
  refine ⟨?_, hsep⟩
  refine hsep.imp_of_mem ?_
  intro a b ha _ hab
  exact Nat.lt_of_le_of_lt (hval a ha) hab

/-- C4 witness: the amended theorem applied to a concrete list with an
overlapping pair. -/
theorem C4_witness :
    (∀ p ∈ [((540 : Nat), (660 : Nat)), (600, 720), (800, 900)], p.1 ≤ p.2) ∧
    List.Pairwise (fun a b : Slot => a.1 < b.1)
      (merge_overlapping_slots [(540, 660), (600, 720), (800, 900)]) ∧
    List.Pairwise (fun a b : Slot => a.2 < b.1)
      (merge_overlapping_slots [(540, 660), (600, 720), (800, 900)]) :=
  ⟨by decide, (C4_merge_output_ordered.2 _ (by decide)).1,
    (C4_merge_output_ordered.2 _ (by decide)).2⟩

/-- C4 counterexample: on the list [(10, 3), (10, 7)] (the first pair has its
end before its start) the merge keeps both pairs and the output starts are
10, 10 — not strictly ascending, refuting the claim as stated for arbitrary
interval lists. -/
theorem C4_cex :
    merge_overlapping_slots [(10, 3), (10, 7)] = [(10, 3), (10, 7)] ∧
    ¬ List.Pairwise (fun a b : Slot => a.1 < b.1)
        (merge_overlapping_slots [(10, 3), (10, 7)]) := by
  constructor
  · rfl
  · intro h
    rw [show merge_overlapping_slots [(10, 3), (10, 7)] = [(10, 3), (10, 7)] from rfl] at h
    exact absurd ((List.pairwise_cons.mp h).1 (10, 7) (List.mem_cons_self _ _)) (by decide)

/-- C8: `_merge_overlapping_slots` is idempotent: applied to its own output
it returns that output unchanged, for every interval list. -/
theorem C8_merge_idempotent (x : List Slot) :
    merge_overlapping_slots (merge_overlapping_slots x) = merge_overlapping_slots x :=
  merge_eq_self _ (merge_sorted x) (merge_chain x)

/-! Lemmas about the free-slot cursor walk. -/

theorem freeLoop_start_ge (l : List Slot) : ∀ prevEnd workEnd,
    ∀ f ∈ freeLoop prevEnd workEnd l, prevEnd ≤ f.1 := by
  induction l with
  | nil =>
    intro prevEnd workEnd f hf
    by_cases h : prevEnd < workEnd
    · simp [freeLoop, h] at hf
      simp [hf]
    · simp [freeLoop, h] at hf
  | cons b rest ih =>
    intro prevEnd workEnd f hf
    by_cases h : prevEnd < b.1
    · rw [show freeLoop prevEnd workEnd (b :: rest) =
          (prevEnd, b.1) :: freeLoop (max prevEnd b.2) workEnd rest by
        simp [freeLoop, h]] at hf
      rcases List.mem_cons.mp hf with h1 | h1
      · simp [h1]
      · exact Nat.le_trans (Nat.le_max_left _ _) (ih (max prevEnd b.2) workEnd f h1)
    · rw [show freeLoop prevEnd workEnd (b :: rest) =
          freeLoop (max prevEnd b.2) workEnd rest by simp [freeLoop, h]] at hf
      exact Nat.le_trans (Nat.le_max_left _ _) (ih (max prevEnd b.2) workEnd f hf)

theorem freeLoop_valid (l : List Slot) : ∀ prevEnd workEnd,
    ∀ f ∈ freeLoop prevEnd workEnd l, f.1 < f.2 := by
  induction l with
  | nil =>
    intro prevEnd workEnd f hf
    by_cases h : prevEnd < workEnd
    · simp [freeLoop, h] at hf
      simp [hf, h]
    · simp [freeLoop, h] at hf
  | cons b rest ih =>
    intro prevEnd workEnd f hf
    by_cases h : prevEnd < b.1
    · rw [show freeLoop prevEnd workEnd (b :: rest) =
          (prevEnd, b.1) :: freeLoop (max prevEnd b.2) workEnd rest by
        simp [freeLoop, h]] at hf
      rcases List.mem_cons.mp hf with h1 | h1
      · simp [h1, h]
      · exact ih (max prevEnd b.2) workEnd f h1
    · rw [show freeLoop prevEnd workEnd (b :: rest) =
          freeLoop (max prevEnd b.2) workEnd rest by simp [freeLoop, h]] at hf
      exact ih (max prevEnd b.2) workEnd f hf

theorem freeLoop_end_le (l : List Slot) : ∀ prevEnd workEnd,
    (∀ b ∈ l, b.1 ≤ workEnd) → ∀ f ∈ freeLoop prevEnd workEnd l, f.2 ≤ workEnd := by
  induction l with
  | nil =>
    intro prevEnd workEnd _ f hf
    by_cases h : prevEnd < workEnd
    · simp [freeLoop, h] at hf
      simp [hf]
    · simp [freeLoop, h] at hf
  | cons b rest ih =>
    intro prevEnd workEnd hb f hf
    by_cases h : prevEnd < b.1
    · rw [show freeLoop prevEnd workEnd (b :: rest) =
          (prevEnd, b.1) :: freeLoop (max prevEnd b.2) workEnd rest by
        simp [freeLoop, h]] at hf
      rcases List.mem_cons.mp hf with h1 | h1
      · rw [h1]
        exact hb b (List.mem_cons_self b rest)
      · exact ih (max prevEnd b.2) workEnd
          (fun x hx => hb x (List.mem_cons_of_mem b hx)) f h1
    · rw [show freeLoop prevEnd workEnd (b :: rest) =
          freeLoop (max prevEnd b.2) workEnd rest by simp [freeLoop, h]] at hf
      exact ih (max prevEnd b.2) workEnd
        (fun x hx => hb x (List.mem_cons_of_mem b hx)) f hf

theorem freeLoop_pairwise_le (l : List Slot) : ∀ prevEnd workEnd,
    List.Pairwise slotLe (freeLoop prevEnd workEnd l) := by
  induction l with
  | nil =>
    intro prevEnd workEnd
    by_cases h : prevEnd < workEnd <;> simp [freeLoop, h, List.pairwise_cons]
  | cons b rest ih =>
    intro prevEnd workEnd
    by_cases h : prevEnd < b.1
    · rw [show freeLoop prevEnd workEnd (b :: rest) =
          (prevEnd, b.1) :: freeLoop (max prevEnd b.2) workEnd rest by
        simp [freeLoop, h]]
      refine List.pairwise_cons.mpr ⟨?_, ih (max prevEnd b.2) workEnd⟩
      intro f hf
      show prevEnd ≤ f.1
      exact Nat.le_trans (Nat.le_max_left _ _)
        (freeLoop_start_ge rest (max prevEnd b.2) workEnd f hf)
    · rw [show freeLoop prevEnd workEnd (b :: rest) =
          freeLoop (max prevEnd b.2) workEnd rest by simp [freeLoop, h]]
      exact ih (max prevEnd b.2) workEnd

theorem freeLoop_pairwise_lt (l : List Slot) : ∀ prevEnd workEnd,
    (∀ b ∈ l, b.1 ≤ b.2) →
    List.Pairwise (fun a b : Slot => a.1 < b.1) (freeLoop prevEnd workEnd l) := by
  induction l with
  | nil =>
    intro prevEnd workEnd _
    by_cases h : prevEnd < workEnd <;> simp [freeLoop, h, List.pairwise_cons]
  | cons b rest ih =>
    intro prevEnd workEnd hv
    have hv' : ∀ x ∈ rest, x.1 ≤ x.2 := fun x hx => hv x (List.mem_cons_of_mem b hx)
    by_cases h : prevEnd < b.1
    · rw [show freeLoop prevEnd workEnd (b :: rest) =
          (prevEnd, b.1) :: freeLoop (max prevEnd b.2) workEnd rest by
        simp [freeLoop, h]]
      refine List.pairwise_cons.mpr ⟨?_, ih (max prevEnd b.2) workEnd hv'⟩
      intro f hf
      show prevEnd < f.1
      have h1 := freeLoop_start_ge rest (max prevEnd b.2) workEnd f hf
      have h2 := hv b (List.mem_cons_self b rest)
      have h3 : b.2 ≤ max prevEnd b.2 := Nat.le_max_right _ _
      omega
    · rw [show freeLoop prevEnd workEnd (b :: rest) =
          freeLoop (max prevEnd b.2) workEnd rest by simp [freeLoop, h]]
      exact ih (max prevEnd b.2) workEnd hv'

theorem freeLoop_pairwise_sep (l : List Slot) : ∀ prevEnd workEnd,
    (∀ b ∈ l, b.1 ≤ b.2) →
    List.Pairwise (fun a b : Slot => a.2 ≤ b.1) (freeLoop prevEnd workEnd l) := by
  induction l with
  | nil =>
    intro prevEnd workEnd _
    by_cases h : prevEnd < workEnd <;> simp [freeLoop, h, List.pairwise_cons]
  | cons b rest ih =>
    intro prevEnd workEnd hv
    have hv' : ∀ x ∈ rest, x.1 ≤ x.2 := fun x hx => hv x (List.mem_cons_of_mem b hx)
    by_cases h : prevEnd < b.1
    · rw [show freeLoop prevEnd workEnd (b :: rest) =
          (prevEnd, b.1) :: freeLoop (max prevEnd b.2) workEnd rest by
        simp [freeLoop, h]]
      refine List.pairwise_cons.mpr ⟨?_, ih (max prevEnd b.2) workEnd hv'⟩
      intro f hf
      show b.1 ≤ f.1
      have h1 := freeLoop_start_ge rest (max prevEnd b.2) workEnd f hf
      have h2 := hv b (List.mem_cons_self b rest)
      have h3 : b.2 ≤ max prevEnd b.2 := Nat.le_max_right _ _
      omega
    · rw [show freeLoop prevEnd workEnd (b :: rest) =
          freeLoop (max prevEnd b.2) workEnd rest by simp [freeLoop, h]]
      exact ih (max prevEnd b.2) workEnd hv'

theorem freeLoop_cover (l : List Slot) : ∀ prevEnd workEnd,
    List.Pairwise slotLe l → (∀ b ∈ l, b.1 ≤ workEnd) → ∀ m,
    (∃ f ∈ freeLoop prevEnd workEnd l, f.1 ≤ m ∧ m < f.2) ↔
      (prevEnd ≤ m ∧ m < workEnd ∧ ∀ b ∈ l, ¬ (b.1 ≤ m ∧ m < b.2)) := by
  induction l with
  | nil =>
    intro prevEnd workEnd _ _ m
    by_cases h : prevEnd < workEnd
    · constructor
      · rintro ⟨f, hf, hm1, hm2⟩
        rw [show freeLoop prevEnd workEnd [] = [(prevEnd, workEnd)] by
          simp [freeLoop, h]] at hf
        have h1 := List.mem_singleton.mp hf
        rw [h1] at hm1 hm2
        exact ⟨hm1, hm2, fun x hx => absurd hx (List.not_mem_nil x)⟩
      · rintro ⟨hm1, hm2, _⟩
        refine ⟨(prevEnd, workEnd), ?_, hm1, hm2⟩
        rw [show freeLoop prevEnd workEnd [] = [(prevEnd, workEnd)] by
          simp [freeLoop, h]]
        exact List.mem_singleton.mpr rfl
    · constructor
      · rintro ⟨f, hf, _, _⟩
        rw [show freeLoop prevEnd workEnd [] = [] by simp [freeLoop, h]] at hf
        exact absurd hf (List.not_mem_nil f)
      · rintro ⟨hm1, hm2, _⟩
        exact absurd (Nat.lt_of_le_of_lt hm1 hm2) h
  | cons b rest ih =>
    intro prevEnd workEnd hp hb m
    rw [List.pairwise_cons] at hp
    have hb' : ∀ x ∈ rest, x.1 ≤ workEnd := fun x hx => hb x (List.mem_cons_of_mem b hx)
    have IH := ih (max prevEnd b.2) workEnd hp.2 hb' m
    by_cases h : prevEnd < b.1
    · rw [show freeLoop prevEnd workEnd (b :: rest) =
          (prevEnd, b.1) :: freeLoop (max prevEnd b.2) workEnd rest by
        simp [freeLoop, h]]
      constructor
      · rintro ⟨f, hf, hm1, hm2⟩
        rcases List.mem_cons.mp hf with h1 | h1
        · rw [h1] at hm1 hm2
          simp only at hm1 hm2
          refine ⟨hm1, Nat.lt_of_lt_of_le hm2 (hb b (List.mem_cons_self b rest)), ?_⟩
          intro x hx
          rcases List.mem_cons.mp hx with h2 | h2
          · rw [h2]; omega
          · have := hp.1 x h2
            show ¬ (x.1 ≤ m ∧ m < x.2)
            have hbx : b.1 ≤ x.1 := this
            omega
        · obtain ⟨hmax, hwe, hrest⟩ := IH.mp ⟨f, h1, hm1, hm2⟩
          have hpm : prevEnd ≤ m := Nat.le_trans (Nat.le_max_left _ _) hmax
          have hb2m : b.2 ≤ m := Nat.le_trans (Nat.le_max_right _ _) hmax
          refine ⟨hpm, hwe, ?_⟩
          intro x hx
          rcases List.mem_cons.mp hx with h2 | h2
          · rw [h2]; omega
          · exact hrest x h2
      · rintro ⟨hm1, hm2, hcov⟩
        by_cases hc : m < b.1
        · exact ⟨(prevEnd, b.1), List.mem_cons_self _ _, hm1, hc⟩
        · have hbm : b.1 ≤ m := Nat.le_of_not_lt hc
          have hb2 : b.2 ≤ m := by
            have := hcov b (List.mem_cons_self b rest)
            omega
          have hmx : max prevEnd b.2 ≤ m := by omega
          obtain ⟨f, hf, h3⟩ := IH.mpr
            ⟨hmx, hm2, fun x hx => hcov x (List.mem_cons_of_mem b hx)⟩
          exact ⟨f, List.mem_cons_of_mem _ hf, h3⟩
    · rw [show freeLoop prevEnd workEnd (b :: rest) =
          freeLoop (max prevEnd b.2) workEnd rest by simp [freeLoop, h]]
      have hble : b.1 ≤ prevEnd := Nat.le_of_not_lt h
      constructor
      · rintro ⟨f, hf, hm1, hm2⟩
        obtain ⟨hmax, hwe, hrest⟩ := IH.mp ⟨f, hf, hm1, hm2⟩
        have hpm : prevEnd ≤ m := Nat.le_trans (Nat.le_max_left _ _) hmax
        have hb2m : b.2 ≤ m := Nat.le_trans (Nat.le_max_right _ _) hmax
        refine ⟨hpm, hwe, ?_⟩
        intro x hx
        rcases List.mem_cons.mp hx with h2 | h2
        · rw [h2]; omega
        · exact hrest x h2
      · rintro ⟨hm1, hm2, hcov⟩
        have hb2 : b.2 ≤ m := by
          have := hcov b (List.mem_cons_self b rest)
          omega
        have hmx : max prevEnd b.2 ≤ m := by omega
        exact IH.mpr ⟨hmx, hm2, fun x hx => hcov x (List.mem_cons_of_mem b hx)⟩

/-! Glue lemmas for lookups. -/

theorem get_busy_slots_eq {sch : Scheduler} {d : List Char} {day : Day}
    (h : findDay sch d = some day) :
    get_busy_slots sch d = merge_overlapping_slots day.busy := by
  simp [get_busy_slots, h]

theorem get_free_slots_eq {sch : Scheduler} {d : List Char} {day : Day}
    (h : findDay sch d = some day) :
    get_free_slots sch d =
      freeLoop day.workStart day.workEnd (merge_overlapping_slots day.busy) := by
  simp [get_free_slots, h, get_busy_slots_eq h]

/-- C1 (amended): for a date of the index whose window satisfies start < end,
every free interval starts at or after the work start (the cursor starts
there and only advances, so busy slots before the work start or straddling
either boundary are harmless); and provided additionally that every busy
slot of the date starts at or before the work end, every free interval also
ends at or before the work end.  The unamended claim — with no proviso on
busy starts — fails when a busy slot begins strictly after the work end,
see the counterexample. -/
theorem C1_free_slots_within_window (sch : Scheduler) (d : List Char) (day : Day)
    (hd : findDay sch d = some day) (hw : day.workStart < day.workEnd) :
    (∀ p ∈ get_free_slots sch d, day.workStart ≤ p.1) ∧
    ((∀ b ∈ day.busy, b.1 ≤ day.workEnd) →
      ∀ p ∈ get_free_slots sch d, day.workStart ≤ p.1 ∧ p.2 ≤ day.workEnd) := by
  rw [get_free_slots_eq hd]
  refine ⟨fun p hp => freeLoop_start_ge _ _ _ p hp, fun hb p hp => ?_⟩
  refine ⟨freeLoop_start_ge _ _ _ p hp, ?_⟩
  refine freeLoop_end_le _ _ _ ?_ p hp
  intro b hbm
  obtain ⟨q, hq, hq1⟩ := merge_mem_starts day.busy b hbm
  rw [hq1]
  exact hb q hq

/-- C1 witness: the amended theorem at the test fixture's first day. -/
theorem C1_witness :
    ((540 : Nat) < 1080 ∧ ∀ b ∈ [((660 : Nat), (720 : Nat))], b.1 ≤ 1080) ∧
    ∀ p ∈ get_free_slots exSched exDateA, 540 ≤ p.1 ∧ p.2 ≤ 1080 :=
  ⟨⟨by decide, by decide⟩,
    (C1_free_slots_within_window exSched exDateA ⟨exDateA, 540, 1080, [(660, 720)]⟩
      (by decide) (by decide)).2 (by decide)⟩

/-- C1 counterexample: with working window 09:00-18:00 and a busy slot
19:00-20:00 (entirely after working hours), `get_free_slots` returns the
single interval (540, 1140) = 09:00-19:00, whose end exceeds the 18:00 work
end — the cursor derivation does not clamp the emitted gap at the window. -/
theorem C1_cex :
    findDay cexSched ['d'] = some ⟨['d'], 540, 1080, [(1140, 1200)]⟩ ∧
    (540 : Nat) < 1080 ∧
    (540, 1140) ∈ get_free_slots cexSched ['d'] ∧
    ¬ ((1140 : Nat) ≤ 1080) := by decide

/-- C2: for a date of the index with workStart < workEnd whose busy slots all
lie within the half-open working window (formalised, with the data model's
interval reading of a busy slot, as workStart ≤ start, start ≤ end and
end ≤ workEnd), the free slots and the merged busy slots together cover a
minute exactly when it lies in [workStart, workEnd), and no two of the
returned intervals share a minute. -/
theorem C2_free_busy_partition (sch : Scheduler) (d : List Char) (day : Day)
    (hd : findDay sch d = some day) (hw : day.workStart < day.workEnd)
    (hb : ∀ p ∈ day.busy, day.workStart ≤ p.1 ∧ p.1 ≤ p.2 ∧ p.2 ≤ day.workEnd) :
    (∀ m, (day.workStart ≤ m ∧ m < day.workEnd) ↔
      ∃ p ∈ get_free_slots sch d ++ get_busy_slots sch d, p.1 ≤ m ∧ m < p.2) ∧
    List.Pairwise (fun a b : Slot => ¬ ∃ m, (a.1 ≤ m ∧ m < a.2) ∧ (b.1 ≤ m ∧ m < b.2))
      (get_free_slots sch d ++ get_busy_slots sch d) := by
  have hv : ∀ p ∈ day.busy, p.1 ≤ p.2 := fun p hp => (hb p hp).2.1
  have hBv : ∀ q ∈ merge_overlapping_slots day.busy, q.1 ≤ q.2 := merge_valid_le day.busy hv
  have hBs : ∀ q ∈ merge_overlapping_slots day.busy, day.workStart ≤ q.1 := by
    intro q hq
    obtain ⟨p, hp, hps⟩ := merge_mem_starts day.busy q hq
    rw [hps]
    exact (hb p hp).1
  have hBe : ∀ q ∈ merge_overlapping_slots day.busy, q.2 ≤ day.workEnd := by
    intro q hq
    obtain ⟨p, hp, hpe⟩ := merge_mem_ends day.busy q hq
    rw [hpe]
    exact (hb p hp).2.2
  have hBsle : ∀ q ∈ merge_overlapping_slots day.busy, q.1 ≤ day.workEnd :=
    fun q hq => Nat.le_trans (hBv q hq) (hBe q hq)
  have hcover := freeLoop_cover (merge_overlapping_slots day.busy)
    day.workStart day.workEnd (merge_sorted day.busy) hBsle
  rw [get_free_slots_eq hd, get_busy_slots_eq hd]
  constructor
  · intro m
    constructor
    · rintro ⟨h1, h2⟩
      by_cases hc : ∃ q ∈ merge_overlapping_slots day.busy, q.1 ≤ m ∧ m < q.2
      · obtain ⟨q, hq, hqm⟩ := hc
        exact ⟨q, List.mem_append_right _ hq, hqm⟩
      · push_neg at hc
        obtain ⟨f, hf, hfm⟩ := (hcover m).mpr
          ⟨h1, h2, fun b hbm => by
            intro hx
            have := hc b hbm hx.1
            omega⟩
        exact ⟨f, List.mem_append_left _ hf, hfm⟩
    · rintro ⟨p, hp, hm1, hm2⟩
      rcases List.mem_append.mp hp with h1 | h1
      · obtain ⟨ha, hb', _⟩ := (hcover m).mp ⟨p, h1, hm1, hm2⟩
        exact ⟨ha, hb'⟩
      · exact ⟨Nat.le_trans (hBs p h1) hm1, Nat.lt_of_lt_of_le hm2 (hBe p h1)⟩
  · refine List.pairwise_append.mpr ⟨?_, ?_, ?_⟩
    · refine (freeLoop_pairwise_sep _ _ _ hBv).imp ?_
      rintro a b hab ⟨m, ⟨_, hma⟩, ⟨hmb, _⟩⟩
      omega
    · refine (merge_pairwise_sep day.busy hv).imp ?_
      rintro a b hab ⟨m, ⟨_, hma⟩, ⟨hmb, _⟩⟩
      omega
    · rintro f hf q hq ⟨m, hmf, hmq⟩
      obtain ⟨_, _, hnc⟩ := (hcover m).mp ⟨f, hf, hmf⟩
      exact hnc q hq hmq

/-- C2 witness: the partition theorem at the test fixture's first day. -/
theorem C2_witness :
    ((540 : Nat) < 1080 ∧
      ∀ p ∈ [((660 : Nat), (720 : Nat))], 540 ≤ p.1 ∧ p.1 ≤ p.2 ∧ p.2 ≤ 1080) ∧
    ((∀ m, (540 ≤ m ∧ m < 1080) ↔
      ∃ p ∈ get_free_slots exSched exDateA ++ get_busy_slots exSched exDateA,
        p.1 ≤ m ∧ m < p.2) ∧
    List.Pairwise (fun a b : Slot => ¬ ∃ m, (a.1 ≤ m ∧ m < a.2) ∧ (b.1 ≤ m ∧ m < b.2))
      (get_free_slots exSched exDateA ++ get_busy_slots exSched exDateA)) :=
  ⟨⟨by decide, by decide⟩,
    C2_free_busy_partition exSched exDateA ⟨exDateA, 540, 1080, [(660, 720)]⟩
      (by decide) (by decide) (by decide)⟩

/-! Characterisation of the availability check. -/

theorem is_available_iff (sch : Scheduler) (d : List Char) (s e : Nat) :
    is_available sch d s e = true ↔
      ∃ day, findDay sch d = some day ∧ day.workStart ≤ s ∧ e ≤ day.workEnd ∧
        ∀ b ∈ get_busy_slots sch d, e ≤ b.1 ∨ b.2 ≤ s := by
  unfold is_available
  cases hd : findDay sch d with
  | none => simp
  | some day =>
    simp only [Option.some.injEq]
    split_ifs with hc
    · simp only [Bool.or_eq_true, decide_eq_true_eq] at hc
      simp only [Bool.false_eq_true, false_iff]
      rintro ⟨day', rfl, h1, h2, _⟩
      omega
    · simp only [Bool.or_eq_true, decide_eq_true_eq, not_or, Nat.not_lt] at hc
      rw [List.all_eq_true]
      constructor
      · intro h
        refine ⟨day, rfl, hc.1, hc.2, ?_⟩
        intro b hbm
        have := h b hbm
        simp only [Bool.or_eq_true, decide_eq_true_eq] at this
        exact this
      · rintro ⟨day', rfl, _, _, h3⟩
        intro b hbm
        simp only [Bool.or_eq_true, decide_eq_true_eq]
        exact h3 b hbm

theorem is_available_eq_false (sch : Scheduler) (d : List Char) (s e : Nat)
    (h : ¬ ∃ day, findDay sch d = some day ∧ day.workStart ≤ s ∧ e ≤ day.workEnd ∧
        ∀ b ∈ get_busy_slots sch d, e ≤ b.1 ∨ b.2 ≤ s) :
    is_available sch d s e = false := by
  cases hb : is_available sch d s e with
  | false => rfl
  | true => exact absurd ((is_available_iff sch d s e).mp hb) h

/-- C5: `is_available(date, start, end)` is `true` exactly when the date is
in the index, the request lies fully inside the working window
(workStart ≤ start and end ≤ workEnd), and the request avoids every merged
busy interval under the overlap reading that touching at a boundary
(requestedEnd = busyStart, or requestedStart = busyEnd) is not an overlap;
in particular an unknown date yields `false` (first conjunct), as does a
request leaving the window or overlapping a busy slot. -/
theorem C5_is_available_spec :
    (∀ sch : Scheduler, ∀ d : List Char, ∀ s e : Nat,
      findDay sch d = none → is_available sch d s e = false) ∧
    (∀ sch : Scheduler, ∀ d : List Char, ∀ s e : Nat,
      is_available sch d s e = true ↔
        ∃ day, findDay sch d = some day ∧ day.workStart ≤ s ∧ e ≤ day.workEnd ∧
          ∀ b ∈ get_busy_slots sch d, e ≤ b.1 ∨ b.2 ≤ s) := by
  refine ⟨?_, is_available_iff⟩
  intro sch d s e hnone
  refine is_available_eq_false sch d s e ?_
  rintro ⟨day, hday, _⟩
  rw [hnone] at hday
  exact Option.noConfusion hday

/-- C5 witness: an unknown date yields `false`, and a request equal to the
fixture's 10:00-10:30 gap is accepted by the characterisation. -/
theorem C5_witness :
    findDay exSched ['x'] = none ∧ is_available exSched ['x'] 600 630 = false ∧
    (is_available exSched exDateA 600 630 = true ↔
      ∃ day, findDay exSched exDateA = some day ∧ day.workStart ≤ 600 ∧
        630 ≤ day.workEnd ∧
        ∀ b ∈ get_busy_slots exSched exDateA, 630 ≤ b.1 ∨ b.2 ≤ 600) :=
  ⟨by decide, C5_is_available_spec.1 exSched ['x'] 600 630 (by decide),
    C5_is_available_spec.2 exSched exDateA 600 630⟩

/-- C9: for a date string absent from the index, the queries return empty or
negative results without failing: no busy slots, no free slots, and
`is_available` is `false` for every request. -/
theorem C9_unknown_date (sch : Scheduler) (d : List Char)
    (h : ∀ day ∈ sch.days, day.date ≠ d) :
    get_busy_slots sch d = [] ∧ get_free_slots sch d = [] ∧
    ∀ s e : Nat, is_available sch d s e = false := by
  have hnone : findDay sch d = none := by
    rw [findDay, List.find?_eq_none]
    intro day hday
    simp [h day hday]
  refine ⟨by simp [get_busy_slots, hnone], by simp [get_free_slots, hnone], ?_⟩
  intro s e
  simp [is_available, hnone]

/-- C9 witness: the theorem at the fixture and the unknown date "2099-01-01". -/
theorem C9_witness :
    (∀ day ∈ exSched.days, day.date ≠ ['2','0','9','9','-','0','1','-','0','1']) ∧
    get_busy_slots exSched ['2','0','9','9','-','0','1','-','0','1'] = [] ∧
    get_free_slots exSched ['2','0','9','9','-','0','1','-','0','1'] = [] ∧
    ∀ s e : Nat, is_available exSched ['2','0','9','9','-','0','1','-','0','1'] s e = false :=
  ⟨by decide, C9_unknown_date exSched ['2','0','9','9','-','0','1','-','0','1'] (by decide)⟩

/-- C3 (amended): for a date of the index whose busy slots are genuine
intervals (start < end, the data model's BusySlot invariant) starting at or
before the work end, every interval returned by `get_free_slots` is accepted
by `is_available`, and every merged interval returned by `get_busy_slots` is
rejected by it.  The unamended claim — with no proviso — fails because a
busy slot starting after the work end makes `get_free_slots` emit an
interval that leaves the working window, which `is_available` then rejects;
see the counterexample. -/
theorem C3_slots_availability (sch : Scheduler) (d : List Char) (day : Day)
    (hd : findDay sch d = some day)
    (hb : ∀ b ∈ day.busy, b.1 < b.2 ∧ b.1 ≤ day.workEnd) :
    (∀ p ∈ get_free_slots sch d, is_available sch d p.1 p.2 = true) ∧
    (∀ q ∈ get_busy_slots sch d, is_available sch d q.1 q.2 = false) := by
  have hv : ∀ b ∈ day.busy, b.1 < b.2 := fun b h => (hb b h).1
  have hBv : ∀ q ∈ merge_overlapping_slots day.busy, q.1 < q.2 := merge_valid_lt day.busy hv
  have hBsle : ∀ q ∈ merge_overlapping_slots day.busy, q.1 ≤ day.workEnd := by
    intro q hq
    obtain ⟨p, hp, hps⟩ := merge_mem_starts day.busy q hq
    rw [hps]
    exact (hb p hp).2
  have hcover := freeLoop_cover (merge_overlapping_slots day.busy)
      day.workStart day.workEnd (merge_sorted day.busy) hBsle
  constructor
  · intro p hp
    rw [get_free_slots_eq hd] at hp
    have h1 : day.workStart ≤ p.1 := freeLoop_start_ge _ _ _ p hp
    have h2 : p.2 ≤ day.workEnd := freeLoop_end_le _ _ _ hBsle p hp
    have h3 : p.1 < p.2 := freeLoop_valid _ _ _ p hp
    rw [is_available_iff]
    refine ⟨day, hd, h1, h2, ?_⟩
    intro b hbm
    rw [get_busy_slots_eq hd] at hbm
    by_contra hcon
    push_neg at hcon
    obtain ⟨hc1, hc2⟩ := hcon
    have hbv := hBv b hbm
    have hm1 : p.1 ≤ max p.1 b.1 := Nat.le_max_left _ _
    have hm2 : max p.1 b.1 < p.2 := by omega
    obtain ⟨_, _, hnc⟩ := (hcover (max p.1 b.1)).mp ⟨p, hp, hm1, hm2⟩
    have hq := hnc b hbm
    have hmb : b.1 ≤ max p.1 b.1 := Nat.le_max_right _ _
    have : ¬ (max p.1 b.1 < b.2) := fun hx => hq ⟨hmb, hx⟩
    omega
  · intro q hq
    rw [get_busy_slots_eq hd] at hq
    have hqv := hBv q hq
    refine is_available_eq_false sch d q.1 q.2 ?_
    rintro ⟨day', _, _, _, hall⟩
    have hqm : q ∈ get_busy_slots sch d := by
      rw [get_busy_slots_eq hd]
      exact hq
    rcases hall q hqm with h | h <;> omega

/-- C3 witness: the amended theorem at the test fixture's first day. -/
theorem C3_witness :
    (∀ b ∈ [((660 : Nat), (720 : Nat))], b.1 < b.2 ∧ b.1 ≤ 1080) ∧
    (∀ p ∈ get_free_slots exSched exDateA, is_available exSched exDateA p.1 p.2 = true) ∧
    (∀ q ∈ get_busy_slots exSched exDateA, is_available exSched exDateA q.1 q.2 = false) :=
  ⟨by decide,
    (C3_slots_availability exSched exDateA ⟨exDateA, 540, 1080, [(660, 720)]⟩
      (by decide) (by decide)).1,
    (C3_slots_availability exSched exDateA ⟨exDateA, 540, 1080, [(660, 720)]⟩
      (by decide) (by decide)).2⟩

/-- C3 counterexample: with working window 09:00-18:00 and busy slot
19:00-20:00, the free slot (540, 1140) returned by `get_free_slots` is
rejected by `is_available` (its end leaves the window), refuting the claim
that every returned free slot is available. -/
theorem C3_cex :
    (540, 1140) ∈ get_free_slots cexSched ['d'] ∧
    is_available cexSched ['d'] 540 1140 = false := by decide

/-! Order facts about Python string comparison. -/

theorem strLt_nil_cons (y : Char) (ys : List Char) : strLt [] (y :: ys) = true := rfl

theorem strLt_nil_right (a : List Char) : strLt a [] = false := by
  cases a <;> rfl

theorem strLt_cons_iff (x y : Char) (xs ys : List Char) :
    strLt (x :: xs) (y :: ys) = true ↔
      x.toNat < y.toNat ∨ (x.toNat = y.toNat ∧ strLt xs ys = true) := by
  simp only [strLt]
  by_cases h1 : x.toNat < y.toNat
  · simp [h1]
  · by_cases h2 : y.toNat < x.toNat
    · simp only [if_neg h1, if_pos h2]
      constructor
      · intro h
        exact absurd h (by simp)
      · intro h
        rcases h with h | h
        · omega
        · omega
    · have heq : x.toNat = y.toNat := by omega
      simp [h1, h2, heq]

theorem strLt_irrefl (a : List Char) : strLt a a = false := by
  induction a with
  | nil => rfl
  | cons c cs ih => simp [strLt, ih]

theorem strLt_trans : ∀ a b c : List Char,
    strLt a b = true → strLt b c = true → strLt a c = true := by
  intro a
  induction a with
  | nil =>
    intro b c _ hbc
    cases c with
    | nil => rw [strLt_nil_right] at hbc; exact absurd hbc (by simp)
    | cons z zs => exact strLt_nil_cons z zs
  | cons x xs ih =>
    intro b c hab hbc
    cases b with
    | nil => rw [strLt_nil_right] at hab; exact absurd hab (by simp)
    | cons y ys =>
      cases c with
      | nil => rw [strLt_nil_right] at hbc; exact absurd hbc (by simp)
      | cons z zs =>
        rw [strLt_cons_iff] at hab hbc ⊢
        rcases hab with h1 | ⟨h1, h1'⟩ <;> rcases hbc with h2 | ⟨h2, h2'⟩
        · exact Or.inl (by omega)
        · exact Or.inl (by omega)
        · exact Or.inl (by omega)
        · exact Or.inr ⟨by omega, ih ys zs h1' h2'⟩

theorem strLt_eq_of_not (a : List Char) : ∀ b : List Char,
    strLt a b = false → strLt b a = false → a = b := by
  induction a with
  | nil =>
    intro b hab _
    cases b with
    | nil => rfl
    | cons y ys => exact absurd (strLt_nil_cons y ys) (by simp [hab])
  | cons x xs ih =>
    intro b hab hba
    cases b with
    | nil => exact absurd (strLt_nil_cons x xs) (by simp [hba])
    | cons y ys =>
      have h1 : ¬ (x.toNat < y.toNat ∨ (x.toNat = y.toNat ∧ strLt xs ys = true)) := by
        rw [← strLt_cons_iff]
        simp [hab]
      have h2 : ¬ (y.toNat < x.toNat ∨ (y.toNat = x.toNat ∧ strLt ys xs = true)) := by
        rw [← strLt_cons_iff]
        simp [hba]
      push_neg at h1 h2
      have hxy : x.toNat = y.toNat := by omega
      have hxs : strLt xs ys = false := by
        have := h1.2 hxy
        cases hx : strLt xs ys with
        | false => rfl
        | true => exact absurd hx this
      have hys : strLt ys xs = false := by
        have := h2.2 hxy.symm
        cases hx : strLt ys xs with
        | false => rfl
        | true => exact absurd hx this
      have : x = y := Char.ext (UInt32.ext hxy)
      rw [this, ih ys hxs hys]

theorem strLt_asymm {a b : List Char} (h : strLt a b = true) : strLt b a = false := by
  cases hx : strLt b a with
  | false => rfl
  | true => exact absurd (strLt_trans a b a h hx) (by simp [strLt_irrefl])

theorem dateLe_refl (a : List Char) : dateLe a a := by
  rw [dateLe, strLe, strLt_irrefl]
  rfl

theorem dateLe_total_fact (a b : List Char) : dateLe a b ∨ dateLe b a := by
  rw [dateLe, dateLe, strLe, strLe]
  cases hx : strLt b a with
  | false => exact Or.inl rfl
  | true => exact Or.inr (by rw [strLt_asymm hx]; rfl)

theorem dateLe_trans_fact {a b c : List Char} (h1 : dateLe a b) (h2 : dateLe b c) :
    dateLe a c := by
  rw [dateLe, strLe] at h1 h2 ⊢
  simp only [Bool.not_eq_true'] at h1 h2 ⊢
  cases hx : strLt c a with
  | false => rfl
  | true =>
    cases hy : strLt a b with
    | true => rw [strLt_trans c a b hx hy] at h2; exact absurd h2 (by simp)
    | false =>
      have : a = b := strLt_eq_of_not a b hy h1
      rw [this] at hx
      rw [hx] at h2
      exact absurd h2 (by simp)

theorem dateLe_lt_or_eq {a b : List Char} (h : dateLe a b) :
    strLt a b = true ∨ a = b := by
  rw [dateLe, strLe, Bool.not_eq_true'] at h
  cases hx : strLt a b with
  | true => exact Or.inl rfl
  | false => exact Or.inr (strLt_eq_of_not a b hx h)

/-! Characterisation of the duration search. -/

theorem firstFit_eq (dur : Nat) : ∀ l : List Slot,
    firstFit dur l = (l.filter fun p => decide (dur ≤ p.2 - p.1)).head? := by
  intro l
  induction l with
  | nil => rfl
  | cons p rest ih =>
    by_cases h : dur ≤ p.2 - p.1
    · simp [firstFit, List.filter_cons, h]
    · simp [firstFit, List.filter_cons, h, ih]

theorem findLoop_eq (sch : Scheduler) (dur : Nat) : ∀ ds : List (List Char),
    findLoop sch dur ds = (ds.flatMap (freeFits sch dur)).head? := by
  intro ds
  induction ds with
  | nil => rfl
  | cons d ds' ih =>
    rw [List.flatMap_cons]
    cases hf : firstFit dur (get_free_slots sch d) with
    | none =>
      have hnil : (get_free_slots sch d).filter (fun p => decide (dur ≤ p.2 - p.1)) = [] := by
        rw [firstFit_eq] at hf
        exact List.head?_eq_none_iff.mp hf
      rw [show findLoop sch dur (d :: ds') = findLoop sch dur ds' by
        simp [findLoop, hf]]
      rw [show freeFits sch dur d = [] by simp [freeFits, hnil]]
      rw [List.nil_append]
      exact ih
    | some p =>
      rw [firstFit_eq] at hf
      have hm : freeFits sch dur d =
          (d, p.1, p.1 + dur) ::
            (((get_free_slots sch d).filter fun q => decide (dur ≤ q.2 - q.1)).tail.map
              fun q => (d, q.1, q.1 + dur)) := by
        rw [freeFits]
        cases hfl : (get_free_slots sch d).filter fun q => decide (dur ≤ q.2 - q.1) with
        | nil => rw [hfl] at hf; exact absurd hf (by simp)
        | cons q t =>
          rw [hfl] at hf
          simp only [List.head?_cons, Option.some.injEq] at hf
          rw [hf]
          rfl
      rw [show findLoop sch dur (d :: ds') = some (d, p.1, p.1 + dur) by
        simp [findLoop]
        rw [show firstFit dur (get_free_slots sch d) = some p by rw [firstFit_eq]; exact hf]]
      rw [hm]
      rfl

/-- C6: `find_slot_for_duration` equals the head of the candidate list built
by scanning the known dates in ascending string order and, within each date,
its free slots in list order, keeping the slots whose span `end - start`
covers the duration and shaping each into `(date, start, start + duration)`;
the scanned date list is ascending in the lexicographic string order, and
(under the data model's interval invariant on busy slots) each date's free
slots are in strictly ascending start order; an empty candidate list yields
`none` (the head of an empty list). -/
theorem C6_find_slot_first_fit (sch : Scheduler) (dur : Nat)
    (hv : ∀ day ∈ sch.days, ∀ b ∈ day.busy, b.1 ≤ b.2) :
    find_slot_for_duration sch dur = (candidateList sch dur).head? ∧
    List.Pairwise dateLe (sortedDates sch) ∧
    ∀ d : List Char,
      List.Pairwise (fun a b : Slot => a.1 < b.1) (get_free_slots sch d) := by
  refine ⟨findLoop_eq sch dur (sortedDates sch), ?_, ?_⟩
  · haveI : IsTotal (List Char) dateLe := ⟨dateLe_total_fact⟩
    haveI : IsTrans (List Char) dateLe := ⟨fun _ _ _ => dateLe_trans_fact⟩
    exact List.sorted_insertionSort dateLe _
  · intro d
    unfold get_free_slots
    cases hd : findDay sch d with
    | none => exact List.Pairwise.nil
    | some day =>
      have hday : day ∈ sch.days := List.mem_of_find?_eq_some hd
      have hbv : ∀ b ∈ merge_overlapping_slots day.busy, b.1 ≤ b.2 :=
        merge_valid_le _ (hv day hday)
      rw [get_busy_slots_eq hd]
      exact freeLoop_pairwise_lt _ _ _ hbv

/-- C6 witness: the characterisation at the repository's test fixture. -/
theorem C6_witness :
    (∀ day ∈ exSched.days, ∀ b ∈ day.busy, b.1 ≤ b.2) ∧
    find_slot_for_duration exSched 60 = (candidateList exSched 60).head? ∧
    List.Pairwise dateLe (sortedDates exSched) ∧
    ∀ d : List Char,
      List.Pairwise (fun a b : Slot => a.1 < b.1) (get_free_slots exSched d) :=
  ⟨by decide, (C6_find_slot_first_fit exSched 60 (by decide)).1,
    (C6_find_slot_first_fit exSched 60 (by decide)).2.1,
    (C6_find_slot_first_fit exSched 60 (by decide)).2.2⟩

theorem freeFits_spec {sch : Scheduler} {dur : Nat} {d : List Char}
    {x : List Char × Nat × Nat} (h : x ∈ freeFits sch dur d) :
    x.1 = d ∧ ∃ p ∈ get_free_slots sch d, dur ≤ p.2 - p.1 ∧ x = (d, p.1, p.1 + dur) := by
  rw [freeFits] at h
  rcases List.mem_map.mp h with ⟨p, hp, hpx⟩
  rcases List.mem_filter.mp hp with ⟨hpf, hpd⟩
  refine ⟨by rw [← hpx], p, hpf, ?_, hpx.symm⟩
  simpa using hpd

theorem free_pairwise_le (sch : Scheduler) (d : List Char) :
    List.Pairwise slotLe (get_free_slots sch d) := by
  unfold get_free_slots
  cases hd : findDay sch d with
  | none => exact List.Pairwise.nil
  | some day => exact freeLoop_pairwise_le _ _ _

theorem freeFits_head_min (sch : Scheduler) {dur1 dur2 : Nat} (hdur : dur1 ≤ dur2)
    {d : List Char} {r1 x : List Char × Nat × Nat} {rest : List (List Char × Nat × Nat)}
    (h1 : (freeFits sch dur1 d ++ rest).head? = some r1)
    (hx : x ∈ freeFits sch dur2 d) :
    r1.1 = d ∧ r1.2.1 ≤ x.2.1 := by
  obtain ⟨hxd, p, hpF, hpdur, hxeq⟩ := freeFits_spec hx
  have hp1 : p ∈ (get_free_slots sch d).filter fun q => decide (dur1 ≤ q.2 - q.1) := by
    refine List.mem_filter.mpr ⟨hpF, ?_⟩
    simp only [decide_eq_true_eq]
    omega
  cases hfl : (get_free_slots sch d).filter fun q => decide (dur1 ≤ q.2 - q.1) with
  | nil => rw [hfl] at hp1; exact absurd hp1 (List.not_mem_nil p)
  | cons q t =>
    have hff : freeFits sch dur1 d =
        (d, q.1, q.1 + dur1) :: (t.map fun w => (d, w.1, w.1 + dur1)) := by
      rw [freeFits, hfl]
      rfl
    have hr1 : r1 = (d, q.1, q.1 + dur1) := by
      rw [hff, List.cons_append, List.head?_cons] at h1
      exact (Option.some.injEq _ _ ▸ h1).symm
    have hpw : List.Pairwise slotLe
        ((get_free_slots sch d).filter fun q => decide (dur1 ≤ q.2 - q.1)) :=
      (free_pairwise_le sch d).filter _
    rw [hfl] at hpw hp1
    have hqp : q.1 ≤ p.1 := by
      rcases List.mem_cons.mp hp1 with h2 | h2
      · rw [h2]
      · exact (List.pairwise_cons.mp hpw).1 p h2
    constructor
    · rw [hr1]
    · rw [hr1, hxeq]
      exact hqp

theorem candidate_head_min (sch : Scheduler) (dur1 dur2 : Nat) (hdur : dur1 ≤ dur2) :
    ∀ ds : List (List Char), List.Pairwise dateLe ds →
    ∀ r1 : List Char × Nat × Nat, (ds.flatMap (freeFits sch dur1)).head? = some r1 →
    ∀ x ∈ ds.flatMap (freeFits sch dur2),
      strLt r1.1 x.1 = true ∨ (r1.1 = x.1 ∧ r1.2.1 ≤ x.2.1) := by
  intro ds
  induction ds with
  | nil =>
    intro _ r1 _ x hx
    rw [List.flatMap_nil] at hx
    exact absurd hx (List.not_mem_nil x)
  | cons d ds' ih =>
    intro hs r1 h1 x hx
    rw [List.pairwise_cons] at hs
    rw [List.flatMap_cons] at h1 hx
    rcases List.mem_append.mp hx with hx1 | hx1
    · obtain ⟨hrd, hrle⟩ := freeFits_head_min sch hdur h1 hx1
      right
      exact ⟨by rw [hrd, (freeFits_spec hx1).1], hrle⟩
    · obtain ⟨d', hd', hxin⟩ := List.mem_flatMap.mp hx1
      have hxd : x.1 = d' := (freeFits_spec hxin).1
      have hle : dateLe d x.1 := by
        rw [hxd]
        exact hs.1 d' hd'
      rcases dateLe_lt_or_eq hle with hlt | heq
      · cases hfd : freeFits sch dur1 d with
        | nil =>
          rw [hfd, List.nil_append] at h1
          exact ih hs.2 r1 h1 x hx1
        | cons r t =>
          left
          have hr1 : r1 = r := by
            rw [hfd, List.cons_append, List.head?_cons] at h1
            exact (Option.some.injEq _ _ ▸ h1).symm
          have hrd : r.1 = d :=
            (freeFits_spec (hfd ▸ List.mem_cons_self r t)).1
          rw [hr1, hrd]
          exact hlt
      · have hdd : d' = d := by rw [heq, hxd]
        rw [hdd] at hxin
        obtain ⟨hrd, hrle⟩ := freeFits_head_min sch hdur h1 hxin
        right
        exact ⟨by rw [hrd, heq], hrle⟩

/-- C7: first-fit search is duration-monotonic: for durations d1 ≤ d2 whose
searches both succeed, d1's result is no later in the search order — its
date is strictly earlier in the string order, or the dates are equal and
d1's start is at most d2's start. -/
theorem C7_search_monotone (sch : Scheduler) (dur1 dur2 : Nat)
    (r1 r2 : List Char × Nat × Nat) (hdur : dur1 ≤ dur2)
    (h1 : find_slot_for_duration sch dur1 = some r1)
    (h2 : find_slot_for_duration sch dur2 = some r2) :
    strLt r1.1 r2.1 = true ∨ (r1.1 = r2.1 ∧ r1.2.1 ≤ r2.2.1) := by
  rw [find_slot_for_duration, findLoop_eq] at h1 h2
  have hsorted : List.Pairwise dateLe (sortedDates sch) := by
    haveI : IsTotal (List Char) dateLe := ⟨dateLe_total_fact⟩
    haveI : IsTrans (List Char) dateLe := ⟨fun _ _ _ => dateLe_trans_fact⟩
    exact List.sorted_insertionSort dateLe _
  exact candidate_head_min sch dur1 dur2 hdur (sortedDates sch) hsorted r1 h1 r2
    (List.mem_of_mem_head? h2)

/-- C7 witness: durations 60 and 90 on the test fixture both land on the
first day with starts 540 and 540. -/
theorem C7_witness :
    (60 : Nat) ≤ 90 ∧
    find_slot_for_duration exSched 60 = some (exDateA, 540, 600) ∧
    find_slot_for_duration exSched 90 = some (exDateA, 540, 630) ∧
    (strLt exDateA exDateA = true ∨ (exDateA = exDateA ∧ (540 : Nat) ≤ 540)) :=
  ⟨by decide, by decide, by decide,
    C7_search_monotone exSched 60 90 (exDateA, 540, 600) (exDateA, 540, 630)
      (by decide) (by decide) (by decide)⟩

/-! Digit and conversion lemmas for the string-level merge. -/

theorem toNat_digitChar (n : Nat) (h : n < 10) : (digitChar n).toNat = 48 + n := by
  interval_cases n <;> decide

theorem digitChar_ne_colon (n : Nat) (h : n < 10) : ¬ (digitChar n = ':') := by
  interval_cases n <;> decide

theorem splitColon_m2t (t : Nat) (ht : t < 6000) :
    splitColon (minutes_to_time t) =
      ([digitChar (t / 60 / 10), digitChar (t / 60 % 10)],
       [digitChar (t % 60 / 10), digitChar (t % 60 % 10)]) := by
  have h1 : t / 60 / 10 < 10 := by omega
  have h2 : t / 60 % 10 < 10 := by omega
  rw [minutes_to_time]
  rw [splitColon, if_neg (digitChar_ne_colon _ h1)]
  rw [splitColon, if_neg (digitChar_ne_colon _ h2)]
  rw [splitColon, if_pos rfl]

theorem digitsVal_two (a b : Nat) (ha : a < 10) (hb : b < 10) :
    digitsVal [digitChar a, digitChar b] = 10 * a + b := by
  rw [digitsVal, List.foldl_cons, List.foldl_cons, List.foldl_nil,
    toNat_digitChar a ha, toNat_digitChar b hb]
  omega

theorem t2m_m2t (t : Nat) (ht : t < 6000) : time_to_minutes (minutes_to_time t) = t := by
  rw [time_to_minutes, splitColon_m2t t ht]
  rw [digitsVal_two _ _ (by omega) (by omega), digitsVal_two _ _ (by omega) (by omega)]
  omega

theorem strLt_nil_nil : strLt [] [] = false := rfl

theorem strLt_m2t (t t' : Nat) (ht : t < 6000) (ht' : t' < 6000) :
    (strLt (minutes_to_time t) (minutes_to_time t') = true ↔ t < t') := by
  rw [minutes_to_time, minutes_to_time]
  simp only [strLt_cons_iff, strLt_nil_nil, Bool.false_eq_true, and_false, or_false,
    toNat_digitChar (t / 60 / 10) (by omega), toNat_digitChar (t / 60 % 10) (by omega),
    toNat_digitChar (t % 60 / 10) (by omega), toNat_digitChar (t % 60 % 10) (by omega),
    toNat_digitChar (t' / 60 / 10) (by omega), toNat_digitChar (t' / 60 % 10) (by omega),
    toNat_digitChar (t' % 60 / 10) (by omega), toNat_digitChar (t' % 60 % 10) (by omega),
    lt_self_iff_false, false_or, true_and]
  constructor
  · rintro (h | ⟨h1, h | ⟨h2, h | ⟨h3, h4⟩⟩⟩) <;> omega
  · intro h
    rcases Nat.lt_trichotomy (t / 60 / 10) (t' / 60 / 10) with h1 | h1 | h1
    · exact Or.inl (by omega)
    · refine Or.inr ⟨by omega, ?_⟩
      rcases Nat.lt_trichotomy (t / 60 % 10) (t' / 60 % 10) with h2 | h2 | h2
      · exact Or.inl (by omega)
      · refine Or.inr ⟨by omega, ?_⟩
        rcases Nat.lt_trichotomy (t % 60 / 10) (t' % 60 / 10) with h3 | h3 | h3
        · exact Or.inl (by omega)
        · exact Or.inr ⟨by omega, by omega⟩
        · exact absurd h (by omega)
      · exact absurd h (by omega)
    · exact absurd h (by omega)

theorem strLt_m2t_bool (t t' : Nat) (ht : t < 6000) (ht' : t' < 6000) :
    strLt (minutes_to_time t) (minutes_to_time t') = decide (t < t') := by
  by_cases h : t < t'
  · rw [decide_eq_true h]
    exact (strLt_m2t t t' ht ht').mpr h
  · rw [decide_eq_false h]
    cases hx : strLt (minutes_to_time t) (minutes_to_time t') with
    | false => rfl
    | true => exact absurd ((strLt_m2t t t' ht ht').mp hx) h

theorem strLe_m2t_bool (t t' : Nat) (ht : t < 6000) (ht' : t' < 6000) :
    strLe (minutes_to_time t) (minutes_to_time t') = decide (t ≤ t') := by
  rw [strLe, strLt_m2t_bool t' t ht' ht]
  by_cases h : t' < t
  · rw [decide_eq_true h, decide_eq_false (by omega : ¬ t ≤ t')]
    rfl
  · rw [decide_eq_false h, decide_eq_true (by omega : t ≤ t')]
    rfl

theorem strMax_m2t (t t' : Nat) (ht : t < 6000) (ht' : t' < 6000) :
    strMax (minutes_to_time t) (minutes_to_time t') = minutes_to_time (max t t') := by
  rw [strMax, strLt_m2t_bool t t' ht ht']
  by_cases h : t < t'
  · simp only [decide_eq_true h, if_true]
    rw [Nat.max_eq_right (Nat.le_of_lt h)]
  · simp only [decide_eq_false h]
    rw [if_neg (by simp : ¬ (false = true))]
    rw [Nat.max_eq_left (Nat.le_of_not_lt h)]

theorem strSlotLe_iff (a b : Slot) (ha : a.1 < 6000) (hb : b.1 < 6000) :
    strSlotLe (slotToStr a) (slotToStr b) ↔ slotLe a b := by
  rw [strSlotLe, slotToStr, slotToStr]
  simp only
  rw [strLe_m2t_bool a.1 b.1 ha hb]
  rw [slotLe]
  exact decide_eq_true_iff

theorem orderedInsert_map (a : Slot) (ha : a.1 < 6000 ∧ a.2 < 6000) :
    ∀ l : List Slot, (∀ x ∈ l, x.1 < 6000 ∧ x.2 < 6000) →
    List.orderedInsert strSlotLe (slotToStr a) (l.map slotToStr) =
      (List.orderedInsert slotLe a l).map slotToStr := by
  intro l
  induction l with
  | nil => intro _; rfl
  | cons b t ih =>
    intro hl
    have hb := hl b (List.mem_cons_self b t)
    rw [List.map_cons, List.orderedInsert, List.orderedInsert]
    by_cases h : slotLe a b
    · rw [if_pos h, if_pos ((strSlotLe_iff a b ha.1 hb.1).mpr h), List.map_cons, List.map_cons]
    · rw [if_neg h, if_neg (fun hc => h ((strSlotLe_iff a b ha.1 hb.1).mp hc)), List.map_cons,
        ih (fun x hx => hl x (List.mem_cons_of_mem b hx))]

theorem insertionSort_map : ∀ l : List Slot, (∀ x ∈ l, x.1 < 6000 ∧ x.2 < 6000) →
    List.insertionSort strSlotLe (l.map slotToStr) =
      (List.insertionSort slotLe l).map slotToStr := by
  intro l
  induction l with
  | nil => intro _; rfl
  | cons a t ih =>
    intro hl
    rw [List.map_cons, List.insertionSort, List.insertionSort,
      ih (fun x hx => hl x (List.mem_cons_of_mem a hx)),
      orderedInsert_map a (hl a (List.mem_cons_self a t))]
    intro x hx
    exact hl x (List.mem_cons_of_mem a (mem_of_mem_insertionSort hx))

theorem mergeLoopStr_map : ∀ (l : List Slot) (last : Slot),
    last.1 < 6000 → last.2 < 6000 → (∀ x ∈ l, x.1 < 6000 ∧ x.2 < 6000) →
    mergeLoopStr (slotToStr last) (l.map slotToStr) = (mergeLoop last l).map slotToStr := by
  intro l
  induction l with
  | nil => intro last _ _ _; rfl
  | cons c t ih =>
    intro last h1 h2 hl
    have hc := hl c (List.mem_cons_self c t)
    have ht' : ∀ x ∈ t, x.1 < 6000 ∧ x.2 < 6000 :=
      fun x hx => hl x (List.mem_cons_of_mem c hx)
    have hcond : strLe (slotToStr c).1 (slotToStr last).2 = decide (c.1 ≤ last.2) := by
      rw [slotToStr, slotToStr]
      simp only
      exact strLe_m2t_bool c.1 last.2 hc.1 h2
    rw [List.map_cons]
    by_cases h : c.1 ≤ last.2
    · rw [show mergeLoopStr (slotToStr last) (slotToStr c :: t.map slotToStr) =
          mergeLoopStr ((slotToStr last).1, strMax (slotToStr last).2 (slotToStr c).2)
            (t.map slotToStr) by
        simp [mergeLoopStr, hcond, h]]
      rw [show mergeLoop last (c :: t) = mergeLoop (last.1, max last.2 c.2) t by
        simp [mergeLoop, h]]
      have hnew : ((slotToStr last).1, strMax (slotToStr last).2 (slotToStr c).2) =
          slotToStr (last.1, max last.2 c.2) := by
        rw [slotToStr, slotToStr, slotToStr]
        simp only
        rw [strMax_m2t last.2 c.2 h2 hc.2]
      rw [hnew]
      exact ih (last.1, max last.2 c.2) h1 (by simp only; omega) ht'
    · rw [show mergeLoopStr (slotToStr last) (slotToStr c :: t.map slotToStr) =
          slotToStr last :: mergeLoopStr (slotToStr c) (t.map slotToStr) by
        simp [mergeLoopStr, hcond, h]]
      rw [show mergeLoop last (c :: t) = last :: mergeLoop c t by simp [mergeLoop, h]]
      rw [List.map_cons, ih c hc.1 hc.2 ht']

theorem merge_str_map (N : List Slot) (hbound : ∀ x ∈ N, x.1 < 6000 ∧ x.2 < 6000) :
    merge_overlapping_slots_str (N.map slotToStr) =
      (merge_overlapping_slots N).map slotToStr := by
  unfold merge_overlapping_slots_str merge_overlapping_slots
  rw [insertionSort_map N hbound]
  cases hs : List.insertionSort slotLe N with
  | nil => rfl
  | cons s rest =>
    rw [List.map_cons]
    show mergeLoopStr (slotToStr s) (rest.map slotToStr) = (mergeLoop s rest).map slotToStr
    have hs' : ∀ x ∈ s :: rest, x.1 < 6000 ∧ x.2 < 6000 := by
      intro x hx
      exact hbound x (mem_of_mem_insertionSort (hs ▸ hx))
    exact mergeLoopStr_map rest s (hs' s (List.mem_cons_self s rest)).1
      (hs' s (List.mem_cons_self s rest)).2
      (fun x hx => hs' x (List.mem_cons_of_mem s hx))

theorem wf_repr {slots : List (TimeStr × TimeStr)}
    (hwf : ∀ p ∈ slots, wfTime p.1 ∧ wfTime p.2) :
    slots = (slots.map slotToMin).map slotToStr ∧
    ∀ x ∈ slots.map slotToMin, x.1 < 6000 ∧ x.2 < 6000 := by
  constructor
  · rw [List.map_map]
    have hid : ∀ p ∈ slots, (slotToStr ∘ slotToMin) p = p := by
      rintro ⟨p1, p2⟩ hp
      obtain ⟨⟨t1, ht1, hp1⟩, ⟨t2, ht2, hp2⟩⟩ := hwf (p1, p2) hp
      simp only at hp1 hp2
      show slotToStr (slotToMin (p1, p2)) = (p1, p2)
      rw [slotToMin, slotToStr]
      simp only
      rw [hp1, hp2, t2m_m2t t1 ht1, t2m_m2t t2 ht2]
    rw [List.map_congr_left hid, List.map_id']
  · intro x hx
    rcases List.mem_map.mp hx with ⟨p, hp, hpx⟩
    obtain ⟨⟨t1, ht1, hp1⟩, ⟨t2, ht2, hp2⟩⟩ := hwf p hp
    rw [← hpx, slotToMin]
    simp only
    rw [hp1, hp2, t2m_m2t t1 ht1, t2m_m2t t2 ht2]
    exact ⟨ht1, ht2⟩

/-- C10: `get_busy_slots` hands `_merge_overlapping_slots` the raw
("HH:MM", "HH:MM") pairs, so sorting, the `current[0] <= last[1]` test and
`max(last[1], current[1])` all act on strings under lexicographic order
(modelled by `merge_overlapping_slots_str`); for every slot list whose time
strings are well-formed zero-padded two-digit "HH:MM" values this agrees
exactly with the reference procedure `merge_via_minutes` that parses to
minutes, merges numerically and formats back. -/
theorem C10_string_merge_refines (slots : List (TimeStr × TimeStr))
    (hwf : ∀ p ∈ slots, wfTime p.1 ∧ wfTime p.2) :
    merge_overlapping_slots_str slots = merge_via_minutes slots := by
  obtain ⟨hrep, hbound⟩ := wf_repr hwf
  conv_lhs => rw [hrep]
  rw [merge_str_map _ hbound]
  rfl

/-- C10 witness: the refinement at the overlapping pair
[("11:00","12:30"), ("09:00","11:30")]. -/
theorem C10_witness :
    (∀ p ∈ [((['1','1',':','0','0'] : TimeStr), (['1','2',':','3','0'] : TimeStr)),
            (['0','9',':','0','0'], ['1','1',':','3','0'])], wfTime p.1 ∧ wfTime p.2) ∧
    merge_overlapping_slots_str
        [((['1','1',':','0','0'] : TimeStr), (['1','2',':','3','0'] : TimeStr)),
         (['0','9',':','0','0'], ['1','1',':','3','0'])] =
      merge_via_minutes
        [((['1','1',':','0','0'] : TimeStr), (['1','2',':','3','0'] : TimeStr)),
         (['0','9',':','0','0'], ['1','1',':','3','0'])] := by
  have hwf : ∀ p ∈ [((['1','1',':','0','0'] : TimeStr), (['1','2',':','3','0'] : TimeStr)),
      (['0','9',':','0','0'], ['1','1',':','3','0'])], wfTime p.1 ∧ wfTime p.2 := by
    intro p hp
    rcases List.mem_cons.mp hp with h | h
    · rw [h]
      exact ⟨⟨660, by omega, by decide⟩, ⟨750, by omega, by decide⟩⟩
    · rcases List.mem_cons.mp h with h' | h'
      · rw [h']
        exact ⟨⟨540, by omega, by decide⟩, ⟨690, by omega, by decide⟩⟩
      · exact absurd h' (List.not_mem_nil p)
  exact ⟨hwf, C10_string_merge_refines _ hwf⟩
